import Mathlib

/-!
Verification development for the PocketFlow-JS engine (`index.js`) and compiler
(`compiler.js`).  The JavaScript sources are shallowly embedded: JSON-like
runtime values become the inductive `JSVal`, node lifecycles become pure
functions threading the shared context explicitly, the `new Function` escape
hatch used by `evaluateExpression` / `evaluateCondition` is an oracle
parameter `jsEval`, and flow orchestration becomes a fuel-indexed recursion
mirroring `Flow._orch`.
-/

namespace PFJS

/-- JavaScript runtime values, restricted to the JSON-shaped data the engine
moves around, plus `undefined` and a marker for the builtin helper functions
(`json`, `stringify`, `parse`) that `evaluateExpression` places in its
evaluation context. -/
inductive JSVal where
  | undefined : JSVal
  | null : JSVal
  | bool : Bool → JSVal
  | num : Int → JSVal
  | str : String → JSVal
  | obj : List (String × JSVal) → JSVal
  | arr : List JSVal → JSVal
  | builtinFn : String → JSVal

/-- Test for `undefined` (used where the source compares with `!== undefined`). -/
def isUndefined : JSVal → Bool
  | .undefined => true
  | _ => false

mutual

/-- Decidable equality of JavaScript values (structural). -/
def jvDecEq : (a b : JSVal) → Decidable (a = b)
  | .undefined, .undefined => isTrue rfl
  | .null, .null => isTrue rfl
  | .bool x, .bool y =>
    if h : x = y then isTrue (congrArg JSVal.bool h)
    else isFalse fun hh => h (JSVal.bool.inj hh)
  | .num x, .num y =>
    if h : x = y then isTrue (congrArg JSVal.num h)
    else isFalse fun hh => h (JSVal.num.inj hh)
  | .str x, .str y =>
    if h : x = y then isTrue (congrArg JSVal.str h)
    else isFalse fun hh => h (JSVal.str.inj hh)
  | .obj x, .obj y =>
    match jvDecEqFields x y with
    | isTrue h => isTrue (congrArg JSVal.obj h)
    | isFalse h => isFalse fun hh => h (JSVal.obj.inj hh)
  | .arr x, .arr y =>
    match jvDecEqList x y with
    | isTrue h => isTrue (congrArg JSVal.arr h)
    | isFalse h => isFalse fun hh => h (JSVal.arr.inj hh)
  | .builtinFn x, .builtinFn y =>
    if h : x = y then isTrue (congrArg JSVal.builtinFn h)
    else isFalse fun hh => h (JSVal.builtinFn.inj hh)
  | .undefined, .null | .undefined, .bool _ | .undefined, .num _ | .undefined, .str _
  | .undefined, .obj _ | .undefined, .arr _ | .undefined, .builtinFn _
  | .null, .undefined | .null, .bool _ | .null, .num _ | .null, .str _
  | .null, .obj _ | .null, .arr _ | .null, .builtinFn _
  | .bool _, .undefined | .bool _, .null | .bool _, .num _ | .bool _, .str _
  | .bool _, .obj _ | .bool _, .arr _ | .bool _, .builtinFn _
  | .num _, .undefined | .num _, .null | .num _, .bool _ | .num _, .str _
  | .num _, .obj _ | .num _, .arr _ | .num _, .builtinFn _
  | .str _, .undefined | .str _, .null | .str _, .bool _ | .str _, .num _
  | .str _, .obj _ | .str _, .arr _ | .str _, .builtinFn _
  | .obj _, .undefined | .obj _, .null | .obj _, .bool _ | .obj _, .num _
  | .obj _, .str _ | .obj _, .arr _ | .obj _, .builtinFn _
  | .arr _, .undefined | .arr _, .null | .arr _, .bool _ | .arr _, .num _
  | .arr _, .str _ | .arr _, .obj _ | .arr _, .builtinFn _
  | .builtinFn _, .undefined | .builtinFn _, .null | .builtinFn _, .bool _
  | .builtinFn _, .num _ | .builtinFn _, .str _ | .builtinFn _, .obj _
  | .builtinFn _, .arr _ => isFalse fun h => by cases h

/-- Decidable equality of value lists. -/
def jvDecEqList : (a b : List JSVal) → Decidable (a = b)
  | [], [] => isTrue rfl
  | [], _ :: _ => isFalse fun h => by cases h
  | _ :: _, [] => isFalse fun h => by cases h
  | x :: xs, y :: ys =>
    match jvDecEq x y with
    | isFalse h => isFalse fun hh => h (List.head_eq_of_cons_eq hh)
    | isTrue h1 =>
      match jvDecEqList xs ys with
      | isTrue h2 => isTrue (h1 ▸ h2 ▸ rfl)
      | isFalse h => isFalse fun hh => h (List.tail_eq_of_cons_eq hh)

/-- Decidable equality of field lists. -/
def jvDecEqFields : (a b : List (String × JSVal)) → Decidable (a = b)
  | [], [] => isTrue rfl
  | [], _ :: _ => isFalse fun h => by cases h
  | _ :: _, [] => isFalse fun h => by cases h
  | (k1, v1) :: xs, (k2, v2) :: ys =>
    if hk : k1 = k2 then
      match jvDecEq v1 v2 with
      | isFalse h => isFalse fun hh => h (congrArg Prod.snd (List.head_eq_of_cons_eq hh))
      | isTrue h1 =>
        match jvDecEqFields xs ys with
        | isTrue h2 => isTrue (hk ▸ h1 ▸ h2 ▸ rfl)
        | isFalse h => isFalse fun hh => h (List.tail_eq_of_cons_eq hh)
    else isFalse fun hh => hk (congrArg Prod.fst (List.head_eq_of_cons_eq hh))

end

instance : DecidableEq JSVal := jvDecEq

instance {ε α : Type} [DecidableEq ε] [DecidableEq α] : DecidableEq (Except ε α) :=
  fun a b =>
    match a, b with
    | .ok x, .ok y =>
      if h : x = y then isTrue (congrArg Except.ok h)
      else isFalse fun hh => h (Except.ok.inj hh)
    | .error x, .error y =>
      if h : x = y then isTrue (congrArg Except.error h)
      else isFalse fun hh => h (Except.error.inj hh)
    | .ok _, .error _ => isFalse fun h => by cases h
    | .error _, .ok _ => isFalse fun h => by cases h

/-- JavaScript truthiness (`undefined`, `null`, `false`, `0` and `""` are
falsy; objects, arrays and functions are always truthy). -/
def truthy : JSVal → Bool
  | .undefined => false
  | .null => false
  | .bool b => b
  | .num n => n != 0
  | .str s => s != ""
  | .obj _ => true
  | .arr _ => true
  | .builtinFn _ => true

/-- The left brace character, written via its code point so that no brace
appears inside a string literal. -/
def lbrace : Char := Char.ofNat 123

/-- The right brace character. -/
def rbrace : Char := Char.ofNat 125

/-- The dot character used by property paths. -/
def dotChar : Char := Char.ofNat 46

/-- Split a character list at every occurrence of a separator
(JavaScript's `String.prototype.split` with a one-character separator:
`"" → [""]`, separators at the ends produce empty segments). -/
def splitCharsOn (sep : Char) : List Char → List (List Char)
  | [] => [[]]
  | x :: rest =>
    if x = sep then [] :: splitCharsOn sep rest
    else match splitCharsOn sep rest with
      | [] => [[x]]
      | h :: t => (x :: h) :: t

/-- Model of `s.split(sep)` for a one-character separator. -/
def splitOnChar (s : String) (sep : Char) : List String :=
  (splitCharsOn sep s.data).map String.mk

mutual

/-- The `String(v)` coercion as performed by `template.replace` on the value
returned from the replacement callback.  Arrays stringify by joining their
elements with commas, with `null`/`undefined` elements becoming empty. -/
def jsToString : JSVal → String
  | .undefined => "undefined"
  | .null => "null"
  | .bool b => if b then "true" else "false"
  | .num n => toString n
  | .str s => s
  | .obj _ => "[object Object]"
  | .arr xs => String.intercalate "," (jsToStringElems xs)
  | .builtinFn n => "function " ++ n

/-- Element stringification inside `Array.prototype.toString`. -/
def jsToStringElems : List JSVal → List String
  | [] => []
  | x :: rest =>
    (match x with
     | .undefined => ""
     | .null => ""
     | v => jsToString v) :: jsToStringElems rest

end

/-- Property read `v[k]`, returning `undefined` when absent.  Only object
own-properties are modelled; exotic properties of primitives (`"x".length`)
are outside the fragment the compiled nodes use. -/
def jsGetField (v : JSVal) (k : String) : JSVal :=
  match v with
  | .obj fields => ((fields.find? fun p => p.1 = k).map Prod.snd).getD .undefined
  | _ => .undefined

/-- Insert-or-overwrite on an association list, keeping the position of an
existing key and appending a new key at the end — JS object property-update
order, also the behaviour of `BaseNode.next`'s `successors[action] = node`. -/
def upsert {α : Type} : List (String × α) → String → α → List (String × α)
  | [], k, x => [(k, x)]
  | (k', v') :: rest, k, x =>
    if k' = k then (k, x) :: rest else (k', v') :: upsert rest k x

/-- Property write `v[k] = x` on an object; writes to primitives are silently
dropped (non-strict JS). -/
def setField (v : JSVal) (k : String) (x : JSVal) : JSVal :=
  match v with
  | .obj fields => .obj (upsert fields k x)
  | other => other

/-- Model of `getNestedProperty` of `compiler.js`: reduce over the dotted path,
short-circuiting to `undefined` whenever the current value is falsy or the
next segment is missing. -/
def getNestedProperty (root : JSVal) (path : String) : JSVal :=
  (splitOnChar path dotChar).foldl
    (fun current key =>
      if truthy current && !(isUndefined (jsGetField current key)) then
        jsGetField current key
      else JSVal.undefined)
    root

/-- The oracle standing for `new Function('ctx', 'result', "return (expr)")
(ctx, result)`: full-JavaScript evaluation of the expression text against the
two variables, with `.error` for a thrown exception (including syntax
errors raised when the function is constructed). -/
def JsEval : Type := String → JSVal → JSVal → Except Unit JSVal

/-- Keys of the `evalContext` object built by `evaluateExpression`. -/
def evalCtxKeys : List String := ["ctx", "result", "json", "stringify", "parse"]

/-- Model of `evaluateExpression(expr, context)` of `compiler.js`: dotted paths are
resolved against the `evalContext` object, bare context keys are returned
directly, and anything else is handed to the JavaScript evaluator, whose
failure returns the expression text itself as a string. -/
def evaluateExpression (jsEval : JsEval) (ctx result : JSVal) (expr : String) : JSVal :=
  let evalContext : JSVal := .obj
    [ ("ctx", if truthy ctx then ctx else .obj [])
    , ("result", if truthy result then result else .obj [])
    , ("json", .builtinFn "json")
    , ("stringify", .builtinFn "stringify")
    , ("parse", .builtinFn "parse") ]
  if expr.data.contains dotChar then
    getNestedProperty evalContext expr
  else if expr ∈ evalCtxKeys then
    jsGetField evalContext expr
  else
    match jsEval expr ctx result with
    | .ok v => v
    | .error _ => .str expr

mutual

/-- Model of `JSON.stringify`, returning `none` where JavaScript yields the value
`undefined` (stringifying `undefined` or a bare function). -/
def jsonStringify : JSVal → Option String
  | .undefined => none
  | .builtinFn _ => none
  | .null => some "null"
  | .bool b => some (if b then "true" else "false")
  | .num n => some (toString n)
  | .str s => some ("\"" ++ s ++ "\"")
  | .arr xs => some ("[" ++ String.intercalate "," (jsonStringifyElems xs) ++ "]")
  | .obj fields => some ("\x7b" ++ String.intercalate ","
      (jsonStringifyFields fields) ++ "\x7d")

/-- Array elements under `JSON.stringify` (`undefined` becomes `null`). -/
def jsonStringifyElems : List JSVal → List String
  | [] => []
  | x :: rest => ((jsonStringify x).getD "null") :: jsonStringifyElems rest

/-- Object entries under `JSON.stringify` (entries whose value stringifies
to nothing are skipped). -/
def jsonStringifyFields : List (String × JSVal) → List String
  | [] => []
  | (k, v) :: rest =>
    match jsonStringify v with
    | some s => ("\"" ++ k ++ "\":" ++ s) :: jsonStringifyFields rest
    | none => jsonStringifyFields rest

end

/-- The replacement computed for one `\x7b\x7b expr \x7d\x7d` placeholder:
the `json(...)` wrapper stringifies the inner expression's value, any other
expression is evaluated and the result is coerced to a string by
`String.replace`. -/
def placeholderRepl (jsEval : JsEval) (ctx result : JSVal) (expr : String) : String :=
  if "json(".data.isPrefixOf expr.data then
    ((jsonStringify (evaluateExpression jsEval ctx result
        ((expr.drop 5).dropRight 1))).getD "undefined")
  else
    jsToString (evaluateExpression jsEval ctx result expr)

/-- Character-level scanner equivalent to the global regex replace over
placeholders: on a double left brace, the expression text runs to the first
right brace and must be followed by a second right brace; otherwise the
character is literal.  Leading whitespace of the captured text is trimmed,
as by the regex.  The fuel argument only bounds the recursion (every step
consumes at least one character, so the initial character count is always
enough); the bailout branch is unreachable from `interpolate`. -/
def interpGo (repl : String → String) : Nat → List Char → List Char
  | 0, cs => cs
  | fuel + 1, cs =>
    match cs with
    | [] => []
    | c1 :: rest1 =>
      match rest1 with
      | [] => [c1]
      | c2 :: rest =>
        if c1 = lbrace ∧ c2 = lbrace then
          let raw := rest.takeWhile fun c => decide (c ≠ rbrace)
          let after := rest.drop raw.length
          if raw.isEmpty then c1 :: interpGo repl fuel (c2 :: rest)
          else if after.take 2 = [rbrace, rbrace] then
            (repl (String.mk (raw.dropWhile Char.isWhitespace))).data
              ++ interpGo repl fuel (after.drop 2)
          else c1 :: interpGo repl fuel (c2 :: rest)
        else c1 :: interpGo repl fuel (c2 :: rest)

/-- Model of `interpolate(template, context)` of `compiler.js`, for string templates:
replace every well-formed placeholder by its computed substitution. -/
def interpolate (jsEval : JsEval) (ctx result : JSVal) (template : String) : String :=
  String.mk
    (interpGo (placeholderRepl jsEval ctx result) template.data.length template.data)

/-! ### The retry loop of `Node._exec` (`index.js`)

`Node._exec` runs `this.exec(prepRes)` up to `maxRetries` times; a failure on
the last attempt is delegated to `execFallback`, a failure on an earlier
attempt waits `wait` seconds (when positive) and retries.  The behaviour of
attempt `i` is abstracted as `exec i`, and the observable events (exec
invocations, inter-attempt delays, the fallback invocation) are collected in
a trace. -/

/-- Observable events of one `Node._exec` run. -/
inductive REv (E : Type) where
  | execCall : Nat → REv E
  | waitEv : REv E
  | fallbackCall : E → REv E
deriving DecidableEq

/-- The loop of `Node._exec` from loop counter `cur` on, with `remaining`
the count of iterations the guard `curRetry < maxRetries` still admits
(`remaining = maxRetries - cur` throughout).  `.ok none` models the
`undefined` returned when the loop exits without a `return` (only possible
when `maxRetries = 0`). -/
def nodeExecFrom {E V : Type} (exec : Nat → Except E V) (fb : E → Except E V)
    (maxRetries wait : Nat) : Nat → Nat → Except E (Option V) × List (REv E)
  | _, 0 => (.ok none, [])
  | cur, remaining + 1 =>
    match exec cur with
    | .ok v => (.ok (some v), [.execCall cur])
    | .error e =>
      if cur = maxRetries - 1 then
        ((fb e).map some, [.execCall cur, .fallbackCall e])
      else
        let t := nodeExecFrom exec fb maxRetries wait (cur + 1) remaining
        (t.1, .execCall cur :: ((if 0 < wait then [REv.waitEv] else []) ++ t.2))

/-- Model of `Node._exec(prepRes)`: the retry loop started at attempt 0. -/
def nodeExec {E V : Type} (exec : Nat → Except E V) (fb : E → Except E V)
    (maxRetries wait : Nat) : Except E (Option V) × List (REv E) :=
  nodeExecFrom exec fb maxRetries wait 0 maxRetries

/-- The default `execFallback(prepRes, exc)`: re-raise the error. -/
def defaultExecFallback {E V : Type} : E → Except E V := fun e => Except.error e

/-- The event trace of a `Node._exec` run whose every attempt fails:
attempts `0 … k-1` in order, an inter-attempt delay exactly between
consecutive attempts when `wait > 0`, and a single fallback call carrying
the last attempt's error. -/
def allFailTrace {E : Type} (k wait : Nat) (errs : Nat → E) : List (REv E) :=
  ((List.range (k - 1)).map fun i =>
    REv.execCall i :: (if 0 < wait then [REv.waitEv] else [])).join
    ++ [REv.execCall (k - 1), REv.fallbackCall (errs (k - 1))]

/-! ### Flow orchestration (`Flow._orch` of `index.js`)

Runtime nodes live in a store keyed by node id (the compiler's `nodes` map).
A node's successors map labels to node ids; its whole
prepare/execute/post-process lifecycle is a function from parameters and the
shared context to either an error or the updated shared context and the
returned action.  `_orch` clones the stored node on every hop (`\x7b ...node \x7d`
plus prototype restoration) and calls `setParams` on the clone only, so the
store is threaded through the recursion unchanged — no step writes to it. -/

/-- A compiled runtime node. -/
structure RtNode where
  params : JSVal
  maxRetries : Nat
  wait : Nat
  succ : List (String × String)
  life : JSVal → JSVal → Except JSVal (JSVal × JSVal)

/-- Node store: the compiler's `id → node` map, as an association list in
insertion order. -/
abbrev Store : Type := List (String × RtNode)

/-- Lookup in the store. -/
def storeFind (store : Store) (id : String) : Option RtNode :=
  (store.find? fun p => p.1 = id).map Prod.snd

/-- Update the node stored under `id` (JS mutates the object in place; ids
are unique after compilation). -/
def storeUpdate (store : Store) (id : String) (f : RtNode → RtNode) : Store :=
  store.map fun p => if p.1 = id then (p.1, f p.2) else p

/-- Model of `Flow.getNextNode(curr, action)`: look up `successors[action || "default"]`;
a falsy action (null/undefined/""/0/false) falls back to the "default" label,
a truthy one is coerced to a property key by `String(action)`. -/
def getNextNode (succ : List (String × String)) (action : JSVal) : Option String :=
  ((succ.find? fun p => p.1 = (if truthy action then jsToString action else "default")).map
    Prod.snd)

/-- Result of an orchestration run:  normal termination with the final shared
context, last action and trace of executed node ids; an error escaping a
node's lifecycle; fuel exhaustion (the while-loop still running); or a
dangling node id (impossible for compiled graphs — successors always point
to registered nodes). -/
inductive RunRes where
  | ok : JSVal → JSVal → List String → RunRes
  | err : JSVal → List String → RunRes
  | fuelOut : List String → RunRes
  | missingNode : String → List String → RunRes
deriving DecidableEq

/-- The while-loop of `Flow._orch`: clone the stored node, `setParams(p)` on
the clone, run its lifecycle, resolve the successor from the returned action,
and continue.  The store is returned alongside the result: the loop body
never writes to it (all mutation lands on the per-hop clone). -/
def orchGo (store : Store) (p : JSVal) : Nat → String → JSVal → List String →
    RunRes × Store
  | 0, _, _, tr => (.fuelOut tr, store)
  | fuel + 1, currId, shared, tr =>
    match storeFind store currId with
    | none => (.missingNode currId tr, store)
    | some nd =>
      let curr : RtNode := { nd with params := p }
      match curr.life curr.params shared with
      | .error e => (.err e (tr ++ [currId]), store)
      | .ok (shared', action) =>
        match getNextNode curr.succ action with
        | none => (.ok shared' action (tr ++ [currId]), store)
        | some nextId => orchGo store p fuel nextId shared' (tr ++ [currId])

/-- Model of `Flow._orch(shared)` from the start node with the flow's own parameters
(`params || \x7b ...this.params \x7d`). -/
def orch (store : Store) (startId : String) (flowParams : JSVal) (fuel : Nat)
    (shared : JSVal) : RunRes × Store :=
  orchGo store flowParams fuel startId shared []

/-- The value `Flow.run` resolves to: `Flow._run` returns
`this.post(shared, prep, execRes)` and `Flow.post` returns `execRes`, the
last action produced by `_orch` — `none` when the run did not finish
normally. -/
def flowRunValue (store : Store) (startId : String) (flowParams : JSVal)
    (fuel : Nat) (shared : JSVal) : Option JSVal :=
  match (orch store startId flowParams fuel shared).1 with
  | .ok _ action _ => some action
  | _ => none

/-! ### Graph Descriptions (the declarative JSON input of `compiler.js`)

`NodeSpec` carries exactly the fields the node factories and the validator
read from a node's JSON object; fields the code never reads (such as
`loop_guard` and a save entry's `valueTemplate`) are carried inertly so that
documented configurations can be written down verbatim. -/

/-- One entry of `post.outputs.save`.  The code reads `save.path` and
`save.value`; `valueTemplate` appears in some configurations but is never
read. -/
structure SaveSpec where
  path : String
  value : Option String := none
  valueTemplate : Option String := none

/-- One entry of a router's `exec.cases`. -/
structure CaseSpec where
  label : Option String := none
  whenCond : Option String := none

/-- A node spec of the graph description. -/
structure NodeSpec where
  id : String
  kind : String
  retryMax : Option Nat := none
  retryWait : Option Nat := none
  prepInputPath : Option String := none
  execPrompt : Option String := none
  execModel : Option String := none
  execUrl : Option String := none
  execMethod : Option String := none
  execCases : List CaseSpec := []
  execData : Option JSVal := none
  postSave : List SaveSpec := []
  postNext : Option String := none
  loopGuardMaxIterations : Option Nat := none

/-- An edge spec (`from`/`to`/`label`). -/
structure EdgeSpec where
  fromId : String
  toId : String
  label : Option String := none

/-- The top-level graph description. -/
structure GraphConfig where
  version : String
  entry : String
  globals : JSVal := .undefined
  nodes : List NodeSpec
  edges : List EdgeSpec

/-- The environment of external collaborators handed to the compiler:
`env.llm.call` (absent when not configured), the global `fetch` of the HTTP
node modelled as a total oracle from the prepared request to the
`\x7bstatus, data, headers\x7d` object, and `env.globals?.model`. -/
structure Env where
  llm : Option (String → String → JSVal) := none
  fetchF : JSVal → JSVal := fun _ => .undefined
  globalsModel : Option String := none

/-- The `a || b` fallback for strings drawn from optional JSON fields (absent and `""`
are falsy). -/
def orStr (a : Option String) (b : String) : String :=
  match a with
  | some s => if s = "" then b else s
  | none => b

/-- Model of `nodeConfig.retry?.max || 1`. -/
def retryMaxOf (spec : NodeSpec) : Nat :=
  match spec.retryMax with
  | some m => if m = 0 then 1 else m
  | none => 1

/-- Model of `nodeConfig.retry?.wait || 0`. -/
def retryWaitOf (spec : NodeSpec) : Nat := spec.retryWait.getD 0

/-- Model of `nodeConfig.post?.next || null` — the action returned by the factories'
post steps. -/
def nextLabel (spec : NodeSpec) : JSVal :=
  match spec.postNext with
  | some s => if s = "" then .null else .str s
  | none => .null

/-- Model of `setNestedProperty(obj, path, value)` of `compiler.js`: walk the dotted
path, creating fresh objects where a segment is missing or holds a
non-object, and write the value at the last segment.  `none` models the
TypeError raised on a `null` intermediate (and flags array intermediates,
which no compiled configuration in this development produces). -/
def setPathGo : JSVal → List String → JSVal → Option JSVal
  | v, [], _ => some v
  | v, [k], x => some (setField v k x)
  | v, k :: k2 :: rest, x =>
    match v with
    | .obj fields =>
      let cur := ((fields.find? fun p => p.1 = k).map Prod.snd).getD .undefined
      let isObjTy : Bool := match cur with
        | .obj _ => true
        | .arr _ => true
        | .null => true
        | _ => false
      let next := if (fields.find? fun p => p.1 = k).isSome && isObjTy
        then cur else JSVal.obj []
      match next with
      | .null => none
      | .arr _ => none
      | _ => (setPathGo next (k2 :: rest) x).map fun sub => setField v k sub
    | _ => none

/-- Entry point of `setNestedProperty` on a dotted path string. -/
def setNestedProperty (sh : JSVal) (path : String) (value : JSVal) : Option JSVal :=
  setPathGo sh (splitOnChar path dotChar) value

/-- The save loop shared by the factories' post steps: the evaluation context
is `\x7bctx: shared, result: execRes\x7d` with `ctx` aliasing the live shared
object, so later saves observe earlier writes.  `interpolate` applies only to
string-valued `save.value`; an absent `save.value` passes `undefined`
through unchanged. -/
def applySaves (jsEval : JsEval) (execRes : JSVal) :
    List SaveSpec → JSVal → Except JSVal JSVal
  | [], sh => .ok sh
  | s :: rest, sh =>
    let value : JSVal := match s.value with
      | some t => .str (interpolate jsEval sh execRes t)
      | none => .undefined
    match setNestedProperty sh s.path value with
    | some sh' => applySaves jsEval execRes rest sh'
    | none => .error (.str "TypeError")

/-- Model of `BaseNode._run`: `prep`, then the `Node._exec` retry loop, then `post`.
The execute behaviour of compiled nodes does not depend on the attempt
number (collaborators are modelled as deterministic oracles), so every
attempt evaluates the same `exec prepRes`. -/
def runLifecycle (maxRetries wait : Nat) (prep : JSVal → JSVal)
    (exec : JSVal → Except JSVal JSVal)
    (post : JSVal → JSVal → JSVal → Except JSVal (JSVal × JSVal))
    (shared : JSVal) : Except JSVal (JSVal × JSVal) :=
  let p := prep shared
  match (nodeExec (fun _ => exec p) defaultExecFallback maxRetries wait).1 with
  | .error e => .error e
  | .ok execRes => post shared p (execRes.getD .undefined)

/-- Model of `createDataNode`: prep wraps the shared context, exec returns the
declared literal payload (`nodeConfig.exec || \x7b\x7d`), post saves the declared
outputs and returns `post.next || null`. -/
def dataNodeLife (jsEval : JsEval) (spec : NodeSpec) :
    JSVal → JSVal → Except JSVal (JSVal × JSVal) :=
  fun _params shared =>
    runLifecycle 1 0
      (fun sh => .obj [("shared", sh)])
      (fun _ => .ok (match spec.execData with
        | some v => if truthy v then v else .obj []
        | none => .obj []))
      (fun sh _p execRes =>
        (applySaves jsEval execRes spec.postSave sh).map fun sh' =>
          (sh', nextLabel spec))
      shared

/-- Model of `evaluateCondition(condition, context)`: full-JavaScript evaluation of the
condition against `(ctx, result)`; any failure yields `false` instead of
throwing. -/
def evaluateCondition (jsEval : JsEval) (cond : String) (ctx result : JSVal) : JSVal :=
  match jsEval cond ctx result with
  | .ok v => v
  | .error _ => .bool false

/-- Whether a router case fires: `!case_.when ||
this.evaluateCondition(case_.when, context)` coerced to a boolean by the
enclosing `if`. -/
def caseMatches (jsEval : JsEval) (ctx result : JSVal) (c : CaseSpec) : Bool :=
  (match c.whenCond with
    | none => true
    | some s => s = "") ||
  truthy (evaluateCondition jsEval (c.whenCond.getD "") ctx result)

/-- The value `return case_.label` produces (`undefined` when absent). -/
def caseLabelVal (c : CaseSpec) : JSVal :=
  match c.label with
  | some s => .str s
  | none => .undefined

/-- The post step of `createRouterNode`: scan the declared cases in order and
return the label of the first one that fires, `null` when none does. -/
def routerPost (jsEval : JsEval) (ctx result : JSVal) : List CaseSpec → JSVal
  | [] => .null
  | c :: rest =>
    if caseMatches jsEval ctx result c then caseLabelVal c
    else routerPost jsEval ctx result rest

/-- Model of `createRouterNode`: prep wraps shared, exec is the identity, post routes
on the declared cases against `\x7bctx: shared, result: shared._lastResult\x7d`
(and writes nothing). -/
def routerNodeLife (jsEval : JsEval) (spec : NodeSpec) :
    JSVal → JSVal → Except JSVal (JSVal × JSVal) :=
  fun _params shared =>
    runLifecycle 1 0
      (fun sh => .obj [("shared", sh)])
      (fun p => .ok p)
      (fun sh _p _execRes =>
        .ok (sh, routerPost jsEval sh (jsGetField sh "_lastResult") spec.execCases))
      shared

/-- Model of `createLLMNode`: prep interpolates the prompt against
`\x7bctx: shared, result: shared._lastResult\x7d` and picks the model
(`exec.model || env.globals?.model || 'gpt-4o-mini'`); exec throws when no
LLM collaborator is configured and otherwise calls it; post records
`_lastResult`, saves outputs and returns `post.next || null`. -/
def llmNodeLife (jsEval : JsEval) (env : Env) (spec : NodeSpec) :
    JSVal → JSVal → Except JSVal (JSVal × JSVal) :=
  fun _params shared =>
    runLifecycle (retryMaxOf spec) (retryWaitOf spec)
      (fun sh => .obj
        [ ("prompt", .str (interpolate jsEval sh (jsGetField sh "_lastResult")
            (spec.execPrompt.getD "")))
        , ("model", .str (orStr spec.execModel (orStr env.globalsModel "gpt-4o-mini"))) ])
      (fun p => match env.llm with
        | none => .error (.str "LLM environment not configured. Provide env.llm.call function.")
        | some call => .ok (call (jsToString (jsGetField p "prompt"))
            (jsToString (jsGetField p "model"))))
      (fun sh _p execRes =>
        (applySaves jsEval execRes spec.postSave
            (setField sh "_lastResult" execRes)).map fun sh' =>
          (sh', nextLabel spec))
      shared

/-- Model of `createHTTPNode`: prep interpolates the url (method/headers/body are
taken verbatim); exec is the external `fetch`-and-decode boundary, modelled
by the `Env.fetchF` oracle from the prepared request to the
`\x7bstatus, data, headers\x7d` result; post mirrors the LLM node's. -/
def httpNodeLife (jsEval : JsEval) (env : Env) (spec : NodeSpec) :
    JSVal → JSVal → Except JSVal (JSVal × JSVal) :=
  fun _params shared =>
    runLifecycle (retryMaxOf spec) (retryWaitOf spec)
      (fun sh => .obj
        [ ("url", .str (interpolate jsEval sh (jsGetField sh "_lastResult")
            (spec.execUrl.getD "")))
        , ("method", .str (orStr spec.execMethod "GET")) ])
      (fun p => .ok (env.fetchF p))
      (fun sh _p execRes =>
        (applySaves jsEval execRes spec.postSave
            (setField sh "_lastResult" execRes)).map fun sh' =>
          (sh', nextLabel spec))
      shared

/-- Model of `Promise.all` over a list of already-settled outcomes: rejects with the
first rejection, otherwise resolves to the values in input order. -/
def promiseAllExcept {E A : Type} : List (Except E A) → Except E (List A)
  | [] => .ok []
  | .error e :: _ => .error e
  | .ok a :: rest => (promiseAllExcept rest).map fun as => a :: as

/-- Model of `createBatchNode`: prep reads the named input collection from shared
(`shared[prep.inputs[0].path || 'items'] || []`); `BatchNode._exec` maps
`super._exec` (the per-element retry loop, with the factory's identity
`exec`) over the collection under `Promise.all`, rejecting on a non-array
truthy collection (`items.map` is not a function); post mirrors the LLM
node's. -/
def batchNodeLife (jsEval : JsEval) (spec : NodeSpec) :
    JSVal → JSVal → Except JSVal (JSVal × JSVal) :=
  fun _params shared =>
    let prep := fun sh =>
      let v := jsGetField sh (orStr spec.prepInputPath "items")
      if truthy v then v else JSVal.arr []
    let p := prep shared
    let execResE : Except JSVal JSVal :=
      match p with
      | .arr xs =>
        (promiseAllExcept (xs.map fun item =>
          ((nodeExec (fun _ => Except.ok item) defaultExecFallback
              (retryMaxOf spec) (retryWaitOf spec)).1).map fun r =>
            r.getD JSVal.undefined)).map JSVal.arr
      | v => if truthy v then .error (.str "TypeError: items.map is not a function")
             else .ok (.arr [])
    match execResE with
    | .error e => .error e
    | .ok execRes =>
      (applySaves jsEval execRes spec.postSave
          (setField shared "_lastResult" execRes)).map fun sh' =>
        (sh', nextLabel spec)

/-- Model of `createAsyncNode`, which mirrors `createLLMNode` through the cooperative
(`Async*`) lifecycle, which is identical in this deterministic model. -/
def asyncNodeLife (jsEval : JsEval) (env : Env) (spec : NodeSpec) :
    JSVal → JSVal → Except JSVal (JSVal × JSVal) :=
  llmNodeLife jsEval env spec

/-- Model of `createParallelNode`, which mirrors `createBatchNode`
(`AsyncParallelBatchNode._exec` is the same `Promise.all` map). -/
def parallelNodeLife (jsEval : JsEval) (spec : NodeSpec) :
    JSVal → JSVal → Except JSVal (JSVal × JSVal) :=
  batchNodeLife jsEval spec

/-- The kind → factory registry of `PocketFlowCompiler`; `none` is an
unregistered kind.  Router and data nodes are built with `new Node()`,
ignoring any declared retry policy; the parameters field starts as the empty
object of the `BaseNode` constructor.  No factory reads `loop_guard`. -/
def makeNode (jsEval : JsEval) (env : Env) (spec : NodeSpec) : Option RtNode :=
  let withRetry := fun life => some
    { params := JSVal.obj [], maxRetries := retryMaxOf spec,
      wait := retryWaitOf spec, succ := [], life := life }
  let plain := fun life => some
    { params := JSVal.obj [], maxRetries := 1, wait := 0, succ := [],
      life := life }
  match spec.kind with
  | "llm" => withRetry (llmNodeLife jsEval env spec)
  | "http" => withRetry (httpNodeLife jsEval env spec)
  | "router" => plain (routerNodeLife jsEval spec)
  | "data" => plain (dataNodeLife jsEval spec)
  | "batch" => withRetry (batchNodeLife jsEval spec)
  | "async" => withRetry (asyncNodeLife jsEval env spec)
  | "parallel" => withRetry (parallelNodeLife jsEval spec)
  | _ => none

/-- The node-creation loop of `compile`: reject duplicate ids and unknown
kinds, keep the `id → node` map in insertion order. -/
def buildNodes (jsEval : JsEval) (env : Env) :
    List NodeSpec → Store → Except String Store
  | [], acc => .ok acc
  | spec :: rest, acc =>
    if (acc.find? fun p => p.1 = spec.id).isSome then
      .error ("Duplicate node ID: " ++ spec.id)
    else match makeNode jsEval env spec with
      | none => .error ("Unknown node kind: " ++ spec.kind)
      | some nd => buildNodes jsEval env rest (acc ++ [(spec.id, nd)])

/-- Model of `edge.label || 'default'`. -/
def edgeKey (e : EdgeSpec) : String := orStr e.label "default"

/-- The edge-wiring loop of `compile`: both endpoints must be registered;
`fromNode.next(toNode, label)` insert-or-overwrites the successor entry. -/
def wireEdges : Store → List EdgeSpec → Except String Store
  | store, [] => .ok store
  | store, e :: rest =>
    if ((store.find? fun p => p.1 = e.fromId).isSome &&
        (store.find? fun p => p.1 = e.toId).isSome) then
      wireEdges
        (storeUpdate store e.fromId fun nd =>
          { nd with succ := upsert nd.succ (edgeKey e) e.toId })
        rest
    else .error ("Edge references missing node: " ++ e.fromId ++ " -> " ++ e.toId)

/-- The output of `compile`: the successor-wired node map, the entry node
and the flow's initial parameters. -/
structure Compiled where
  nodes : Store
  entryId : String
  flowParams : JSVal

/-- Model of `PocketFlowCompiler.compile(config)`: check the required top-level
fields, create one runtime node per node spec, wire one successor per edge,
resolve the entry node, and set the flow's parameters to
`config.globals || \x7b\x7d`. -/
def compile (jsEval : JsEval) (env : Env) (cfg : GraphConfig) :
    Except String Compiled :=
  if cfg.version = "" ∨ cfg.entry = "" then
    .error "Invalid config: missing required fields (version, entry, nodes, edges)"
  else
    match buildNodes jsEval env cfg.nodes [] with
    | .error e => .error e
    | .ok store0 =>
      match wireEdges store0 cfg.edges with
      | .error e => .error e
      | .ok store1 =>
        if (store1.find? fun p => p.1 = cfg.entry).isSome then
          .ok { nodes := store1, entryId := cfg.entry,
                flowParams := if truthy cfg.globals then cfg.globals else .obj [] }
        else .error ("Entry node not found: " ++ cfg.entry)

/-! ### The Validator (`MetaAgentCreator.validateConfig` / `validateEdgeRouting`) -/

/-- The labels `validateEdgeRouting` considers producible by a node:
"default", a truthy declared `post.next`, and (for routers) the truthy case
labels. -/
def nodeActionsOf (n : NodeSpec) : List String :=
  "default" ::
    ((match n.postNext with
      | some s => if s = "" then [] else [s]
      | none => []) ++
     (if n.kind = "router" then
        n.execCases.filterMap fun c =>
          match c.label with
          | some l => if l = "" then none else some l
          | none => none
      else []))

/-- The `nodeActions` map, keyed by id with later duplicate ids overwriting
earlier ones (`Map.set`). -/
def nodeActionsMap (nodes : List NodeSpec) : List (String × List String) :=
  nodes.foldl (fun m n => upsert m n.id (nodeActionsOf n)) []

/-- The per-edge loop of `validateEdgeRouting`: skip edges whose source is
undeclared, otherwise require the edge's label among the source's producible
actions. -/
def checkEdgeRouting (nodes : List NodeSpec)
    (actions : List (String × List String)) : List EdgeSpec → Except String Unit
  | [] => .ok ()
  | e :: rest =>
    match nodes.find? fun n => n.id = e.fromId with
    | none => checkEdgeRouting nodes actions rest
    | some _ =>
      let validActions := (((actions.find? fun p => p.1 = e.fromId).map
        Prod.snd).getD [])
      if edgeKey e ∈ validActions then checkEdgeRouting nodes actions rest
      else .error ("Invalid edge routing: Node '" ++ e.fromId ++
        "' cannot route to '" ++ e.toId ++ "' with label '" ++ edgeKey e ++ "'")

/-- Model of `validateEdgeRouting(config)`. -/
def validateEdgeRouting (cfg : GraphConfig) : Except String Unit :=
  checkEdgeRouting cfg.nodes (nodeActionsMap cfg.nodes) cfg.edges

/-- The edge-endpoint loop of `validateConfig`. -/
def checkEdgeRefs (ids : List String) : List EdgeSpec → Except String Unit
  | [] => .ok ()
  | e :: rest =>
    if e.fromId ∈ ids then
      if e.toId ∈ ids then checkEdgeRefs ids rest
      else .error ("Edge references missing node: " ++ e.toId)
    else .error ("Edge references missing node: " ++ e.fromId)

/-- Model of `MetaAgentCreator.validateConfig(config)`: required fields, at least one
node, entry declared, edge endpoints declared, and edge-routing consistency.
(Note: it does not reject duplicate node ids or duplicate
`(from, label)` edge pairs.) -/
def validateConfig (cfg : GraphConfig) : Except String Unit :=
  if cfg.version = "" ∨ cfg.entry = "" then
    .error "Invalid config: missing required fields (version, entry, nodes, edges)"
  else if cfg.nodes.isEmpty then
    .error "Config must have at least one node"
  else if cfg.entry ∈ cfg.nodes.map (fun n => n.id) then
    match checkEdgeRefs (cfg.nodes.map fun n => n.id) cfg.edges with
    | .error e => .error e
    | .ok _ => validateEdgeRouting cfg
  else .error ("Entry node '" ++ cfg.entry ++ "' not found in nodes")

/-- The total number of successor links installed across all compiled
nodes. -/
def totalLinks (c : Compiled) : Nat :=
  (c.nodes.map fun p => p.2.succ.length).sum

/-- A JavaScript-evaluator oracle for expression texts on which
`new Function('ctx','result', "return (expr)")` throws — e.g. syntactically
invalid expressions such as `foo bar`, or references to undeclared
variables. -/
def jsEvalNone : JsEval := fun _ _ _ => .error ()

/-! ### Microtask-level model of `BatchNode._exec` (`index.js`)

`BatchNode._exec(items)` is `Promise.all((items || []).map(item =>
super._exec(item)))`.  Each `super._exec(item)` is an async function: calling
it runs its body synchronously up to its first `await` (it always contains at
least one, `await this.exec(prepRes)`), then suspends; the map therefore
invokes every element's execution, in collection order, before any of them
can complete.  An element's whole execution (the retry loop included) is
abstracted as a number of synchronous segments separated by awaits — at
least 2 for every element.  The launch phase runs the first segment of each
task in order; remaining segments run on the FIFO microtask queue. -/

/-- Start (the element's execution is invoked) and completion events of the
per-element executions inside one `BatchNode._exec` call. -/
inductive BEv where
  | start : Nat → BEv
  | done : Nat → BEv
deriving DecidableEq

/-- Launch phase of `Promise.all(items.map(...))`: the first segment of each
task runs synchronously, in input order; a task with a single segment
completes during its own launch. -/
def launchEvents : List Nat → Nat → List BEv
  | [], _ => []
  | k :: rest, i => (if k ≤ 1 then [.start i, .done i] else [.start i]) ++
      launchEvents rest (i + 1)

/-- Tasks still pending after the launch phase, with their remaining segment
counts, in queue order. -/
def initialPending : List Nat → Nat → List (Nat × Nat)
  | [], _ => []
  | k :: rest, i => (if k ≤ 1 then [] else [(i, k - 1)]) ++
      initialPending rest (i + 1)

/-- The FIFO microtask loop: run one segment of the front task; re-queue it
if segments remain, record its completion otherwise.  The fuel argument only
bounds the recursion (each turn lowers the total remaining segment count
plus queue length). -/
def eventLoop : Nat → List (Nat × Nat) → List BEv
  | _, [] => []
  | 0, _ => []
  | fuel + 1, (i, r) :: q =>
    if r ≤ 1 then .done i :: eventLoop fuel q
    else eventLoop fuel (q ++ [(i, r - 1)])

/-- The event trace of one `BatchNode._exec` call whose element executions
have the given segment counts. -/
def promiseAllMapTrace (ks : List Nat) : List BEv :=
  launchEvents ks 0 ++
    eventLoop (ks.sum + ks.length) (initialPending ks 0)

/-- The sequential fan-out discipline as a predicate on traces: element
`i+1`'s execution never starts before element `i`'s execution has
completed. -/
def startsAfterDones (tr : List BEv) : Bool :=
  (List.range tr.length).all fun p =>
    match tr.get? p with
    | some (BEv.start (i + 1)) => decide (BEv.done i ∈ tr.take p)
    | _ => true

/-! ### Counting successor links (for the compilation-totality analysis) -/

/-- Total successor entries of a store. -/
def storeLinks (store : Store) : Nat :=
  (store.map fun p => p.2.succ.length).sum

/-- All `(owner id, label)` pairs present in a store's successor maps. -/
def seenPairs (store : Store) : List (String × String) :=
  store.flatMap fun p => p.2.succ.map fun s => (p.1, s.1)

/-- Accumulate the distinct `(from, label || 'default')` pairs of an edge
list, in first-occurrence order, on top of an initial collection. -/
def edgePairsDedup : List EdgeSpec → List (String × String) →
    List (String × String)
  | [], seen => seen
  | e :: rest, seen =>
    edgePairsDedup rest
      (if (e.fromId, edgeKey e) ∈ seen then seen else seen ++ [(e.fromId, edgeKey e)])

/-- The number of distinct `(from, label || 'default')` pairs among an edge
list. -/
def distinctPairCount (es : List EdgeSpec) : Nat := (edgePairsDedup es []).length

/-! ### Concrete graphs and stores the individual claims evaluate -/

/-- A node producing the label "stop", which has no matching successor. -/
def stopNode : RtNode :=
  { params := .obj [], maxRetries := 1, wait := 0,
    succ := [("go", "x")],
    life := fun _ _ => .ok (.obj [], .str "stop") }

/-- A one-node store holding `stopNode`. -/
def stopStore : Store := [("n", stopNode)]

/-- A JavaScript-evaluator oracle that evaluates the literal condition
`true` and throws on everything else. -/
def jsEvalTrueOnly : JsEval :=
  fun e _ _ => if e = "true" then .ok (.bool true) else .error ()

/-- Router cases: a first case whose condition fails to evaluate, a second
guarded by the literal `true`, and a trailing catch-all. -/
def routerCasesW : List CaseSpec :=
  [ { label := some "approve", whenCond := some "score >= 8" }
  , { label := some "review", whenCond := some "true" }
  , { label := some "reject" } ]

/-- A validated graph with two edges out of `a` that both carry the implicit
"default" label: `a → b` and `a → c`. -/
def dupLabelCfg : GraphConfig :=
  { version := "pf-js/1.0", entry := "a",
    nodes := [ { id := "a", kind := "data" }
             , { id := "b", kind := "data" }
             , { id := "c", kind := "data" } ],
    edges := [ { fromId := "a", toId := "b" }
             , { fromId := "a", toId := "c" } ] }

/-- The successor-link total `compile` produces on `dupLabelCfg`. -/
def dupLabelCfgLinks : Nat :=
  match compile jsEvalNone {} dupLabelCfg with
  | .ok c => totalLinks c
  | .error _ => 0

/-- A small two-node, one-edge graph. -/
def smallCfg : GraphConfig :=
  { version := "pf-js/1.0", entry := "a",
    nodes := [ { id := "a", kind := "data", postNext := some "go" }
             , { id := "b", kind := "data" } ],
    edges := [ { fromId := "a", toId := "b", label := some "go" } ] }

/-- The compilation of `smallCfg`. -/
def smallCompiled : Compiled :=
  (compile jsEvalNone {} smallCfg).toOption.getD ⟨[], "", .undefined⟩

/-- The end-to-end graph of §8 of the specification, written exactly as the
specification gives it: node kind `static-data` and a save entry using the
key `valueTemplate`. -/
def specEndToEndCfg : GraphConfig :=
  { version := "pf-js/1.0", entry := "greet",
    nodes := [ { id := "greet", kind := "static-data",
                 execData := some (.obj [("message", .str "hi")]),
                 postSave := [ { path := "out",
                                 valueTemplate := some "\x7b\x7bexec.message\x7d\x7d" } ] } ],
    edges := [] }

/-- The end-to-end graph adjusted to what the code accepts: kind `data`, the
save entry keyed `value`, and the execute result addressed as
`result.message`. -/
def endToEndCfg : GraphConfig :=
  { version := "pf-js/1.0", entry := "greet",
    nodes := [ { id := "greet", kind := "data",
                 execData := some (.obj [("message", .str "hi")]),
                 postSave := [ { path := "out",
                                 value := some "\x7b\x7bresult.message\x7d\x7d" } ] } ],
    edges := [] }

/-- Compile `endToEndCfg` and run the resulting flow on an empty shared
context (fuel 2 is more than the single hop needs). -/
def endToEndRun : RunRes :=
  match compile jsEvalNone {} endToEndCfg with
  | .ok c => (orch c.nodes c.entryId c.flowParams 2 (.obj [])).1
  | .error e => .err (.str e) []

/-- An environment whose LLM collaborator always answers. -/
def loopEnv : Env := { llm := some fun _prompt _model => .obj [("text", .str "x")] }

/-- The two-node review ⇄ revise cycle, the `revise` node declaring
`loop_guard.max_iterations = 3`. -/
def loopCfg : GraphConfig :=
  { version := "pf-js/1.0", entry := "review",
    nodes := [ { id := "review", kind := "llm",
                 execPrompt := some "review: \x7b\x7bctx.draft\x7d\x7d",
                 postNext := some "revise" }
             , { id := "revise", kind := "llm",
                 execPrompt := some "revise: \x7b\x7bctx.draft\x7d\x7d",
                 postNext := some "review",
                 loopGuardMaxIterations := some 3 } ],
    edges := [ { fromId := "review", toId := "revise", label := some "revise" }
             , { fromId := "revise", toId := "review", label := some "review" } ] }

/-- The ids of the nodes executed during the first eight hops of running the
compiled cycle. -/
def loopTrace : List String :=
  match compile jsEvalNone loopEnv loopCfg with
  | .ok c =>
    match (orch c.nodes c.entryId c.flowParams 8 (.obj [])).1 with
    | .ok _ _ tr => tr
    | .err _ tr => tr
    | .fuelOut tr => tr
    | .missingNode _ tr => tr
  | .error _ => []

/-! ## Theorems -/

/-- C10: successor resolution maps every falsy post-process label — not only
`null`/absent, but also `""`, `0` and `false` — to a lookup of the
`"default"` label, while a truthy label is looked up under its string
coercion; the flow ends exactly when that lookup misses. -/
theorem c10_falsy_label_default :
    (∀ (succ : List (String × String)) (l : JSVal), truthy l = false →
      getNextNode succ l = ((succ.find? fun p => p.1 = "default").map Prod.snd)) ∧
    (∀ (succ : List (String × String)) (l : JSVal), truthy l = true →
      getNextNode succ l = ((succ.find? fun p => p.1 = jsToString l).map Prod.snd)) := by
  constructor
  · intro succ l h
    simp [getNextNode, h]
  · intro succ l h
    simp [getNextNode, h]

/-- Witness for C10: the empty-string, zero and `false` labels all resolve
through the "default" entry; a truthy label uses its own key. -/
theorem c10_falsy_label_default_witness :
    getNextNode [("default", "n1")] (.str "") = some "n1" ∧
    getNextNode [("default", "n1")] (.num 0) = some "n1" ∧
    getNextNode [("default", "n1")] (.bool false) = some "n1" ∧
    getNextNode [("default", "n1"), ("5", "n2")] (.num 5) = some "n2" := by
  refine ⟨?_, ?_, ?_, ?_⟩
  · exact (c10_falsy_label_default.1 [("default", "n1")] (.str "") rfl).trans rfl
  · exact (c10_falsy_label_default.1 [("default", "n1")] (.num 0) rfl).trans rfl
  · exact (c10_falsy_label_default.1 [("default", "n1")] (.bool false) rfl).trans rfl
  · exact (c10_falsy_label_default.2 [("default", "n1"), ("5", "n2")] (.num 5)
      rfl).trans (by decide)

/-- C3: when the current node's lifecycle returns a label with no matching
successor, the orchestration loop stops right there with no error — the
normal termination condition — the last action is that label, and the value
`Flow.run` resolves to (`Flow.post` passes `_orch`'s result through) is
exactly that label. -/
theorem c3_no_successor_terminates :
    (∀ (store : Store) (p : JSVal) (fuel : Nat) (currId : String)
      (shared : JSVal) (tr : List String) (nd : RtNode) (s' a : JSVal),
      storeFind store currId = some nd →
      nd.life p shared = .ok (s', a) →
      getNextNode nd.succ a = none →
      orchGo store p (fuel + 1) currId shared tr =
        (.ok s' a (tr ++ [currId]), store)) ∧
    (∀ (store : Store) (startId : String) (fp : JSVal) (fuel : Nat)
      (shared s' a : JSVal) (tr : List String) (st : Store),
      orch store startId fp fuel shared = (.ok s' a tr, st) →
      flowRunValue store startId fp fuel shared = some a) := by
  constructor
  · intro store p fuel currId shared tr nd s' a h1 h2 h3
    simp only [orchGo, h1, h2, h3]
  · intro store startId fp fuel shared s' a tr st h
    simp only [flowRunValue, h]

/-- Witness for C3: a node returning the label "stop", which has no matching
successor, ends the flow with result "stop". -/
theorem c3_no_successor_terminates_witness :
    orchGo stopStore (.obj []) 5 "n" (.obj []) [] =
      (.ok (.obj []) (.str "stop") ["n"], stopStore) ∧
    flowRunValue stopStore "n" (.obj []) 5 (.obj []) = some (.str "stop") := by
  have h1 := c3_no_successor_terminates.1 stopStore (.obj []) 4 "n" (.obj []) []
    stopNode (.obj []) (.str "stop") rfl rfl rfl
  refine ⟨h1, ?_⟩
  exact c3_no_successor_terminates.2 stopStore "n" (.obj []) 5 (.obj [])
    (.obj []) (.str "stop") ["n"] stopStore h1

/-- C9: `Flow._orch` operates on per-hop shallow clones (`\x7b ...node \x7d` with
the prototype restored) and `setParams` lands on the clone, so the node
store is threaded through orchestration unchanged: after any run, every
registered node still has its pre-run `params` and exactly its pre-run
successor entries. -/
theorem c9_store_unchanged (store : Store) (p : JSVal) (fuel : Nat)
    (id : String) (shared : JSVal) (tr : List String) :
    (orchGo store p fuel id shared tr).2 = store ∧
    (∀ i : String, storeFind (orchGo store p fuel id shared tr).2 i = storeFind store i) := by
  have h : (orchGo store p fuel id shared tr).2 = store := by
    induction fuel generalizing id shared tr with
    | zero => rfl
    | succ n ih =>
      simp only [orchGo]
      split
      · rfl
      · split
        · rfl
        · split
          · rfl
          · exact ih _ _ _
  exact ⟨h, fun i => by rw [h]⟩

/-- C4: the router's post step scans the declared cases in declared order
and returns the label of the first case that fires; a case fires when its
condition is absent (or empty, hence falsy) or evaluates to a truthy value —
in particular the literal condition "true" is a catch-all; with no firing
case the post step returns `null` (no label); and a condition whose
evaluation throws is treated as `false` rather than raising. -/
theorem c4_router_first_match :
    (∀ (jsEval : JsEval) (ctx result : JSVal) (cases : List CaseSpec)
      (i : Nat) (hi : i < cases.length),
      (∀ j (hj : j < i),
        caseMatches jsEval ctx result (cases.get ⟨j, Nat.lt_trans hj hi⟩) = false) →
      caseMatches jsEval ctx result (cases.get ⟨i, hi⟩) = true →
      routerPost jsEval ctx result cases = caseLabelVal (cases.get ⟨i, hi⟩)) ∧
    (∀ (jsEval : JsEval) (ctx result : JSVal) (cases : List CaseSpec),
      (∀ c ∈ cases, caseMatches jsEval ctx result c = false) →
      routerPost jsEval ctx result cases = .null) ∧
    (∀ (jsEval : JsEval) (ctx result : JSVal) (cond : String),
      jsEval cond ctx result = .error () →
      evaluateCondition jsEval cond ctx result = .bool false) ∧
    (∀ (jsEval : JsEval) (ctx result : JSVal) (c : CaseSpec),
      c.whenCond = some "true" → jsEval "true" ctx result = .ok (.bool true) →
      caseMatches jsEval ctx result c = true) := by
  refine ⟨?_, ?_, ?_, ?_⟩
  · intro jsEval ctx result cases
    induction cases with
    | nil => intro i hi; exact absurd hi (by simp)
    | cons c rest ih =>
      intro i hi hprev hmatch
      match i with
      | 0 =>
        simp only [List.get] at hmatch
        simp [routerPost, hmatch]
      | j + 1 =>
        have hc0 : caseMatches jsEval ctx result c = false := by
          have := hprev 0 (Nat.succ_pos j)
          simpa using this
        simp only [routerPost, hc0, Bool.false_eq_true, if_false]
        exact ih j (Nat.lt_of_succ_lt_succ hi)
          (fun k hk => by
            have := hprev (k + 1) (Nat.succ_lt_succ hk)
            simpa using this)
          (by simpa using hmatch)
  · intro jsEval ctx result cases hall
    induction cases with
    | nil => rfl
    | cons c rest ih =>
      have hc : caseMatches jsEval ctx result c = false := hall c (by simp)
      simp only [routerPost, hc, Bool.false_eq_true, if_false]
      exact ih fun d hd => hall d (by simp [hd])
  · intro jsEval ctx result cond h
    simp [evaluateCondition, h]
  · intro jsEval ctx result c hw ht
    simp [caseMatches, hw, evaluateCondition, ht, truthy]

/-- Witness for C4: with a first case whose condition throws, a second
guarded by the literal "true" and a trailing catch-all, the router returns
the second case's label; with no cases it returns `null`. -/
theorem c4_router_first_match_witness :
    routerPost jsEvalTrueOnly (.obj []) .undefined routerCasesW = .str "review" ∧
    routerPost jsEvalTrueOnly (.obj []) .undefined [] = .null ∧
    evaluateCondition jsEvalTrueOnly "score >= 8" (.obj []) .undefined = .bool false := by
  refine ⟨?_, ?_, ?_⟩
  · have h := c4_router_first_match.1 jsEvalTrueOnly (.obj []) .undefined routerCasesW
      1 (by decide)
      (fun j hj => by
        have hj0 : j = 0 := by omega
        subst hj0
        exact (by decide : caseMatches jsEvalTrueOnly (.obj []) .undefined
          (routerCasesW.get ⟨0, by decide⟩) = false))
      (by decide)
    exact h.trans (by decide)
  · exact c4_router_first_match.2.1 jsEvalTrueOnly (.obj []) .undefined [] (by simp)
  · exact c4_router_first_match.2.2.1 jsEvalTrueOnly (.obj []) .undefined "score >= 8" rfl

/-- The retry loop on an always-failing execute stage, from any consistent
loop state (`cur + remaining = maxRetries`, at least one iteration left):
the result is the fallback's and the trace lists the remaining attempts,
delays strictly between consecutive attempts, and the final fallback call. -/
theorem nodeExecFrom_all_fail {E V : Type} (exec : Nat → Except E V)
    (fb : E → Except E V) (k wait : Nat) (errs : Nat → E)
    (hfail : ∀ i, i < k → exec i = Except.error (errs i)) :
    ∀ (remaining cur : Nat), cur + remaining = k → 0 < remaining →
    nodeExecFrom exec fb k wait cur remaining =
      ((fb (errs (k - 1))).map some,
       ((List.range' cur (remaining - 1)).map fun i =>
          REv.execCall i :: (if 0 < wait then [REv.waitEv] else [])).join
         ++ [REv.execCall (k - 1), REv.fallbackCall (errs (k - 1))]) := by
  have step : ∀ (c rr : Nat), exec c = Except.error (errs c) → ¬ (c = k - 1) →
      nodeExecFrom exec fb k wait c (rr + 1) =
        ((nodeExecFrom exec fb k wait (c + 1) rr).1,
         REv.execCall c :: ((if 0 < wait then [REv.waitEv] else []) ++
           (nodeExecFrom exec fb k wait (c + 1) rr).2)) := by
    intro c rr hexc hne
    simp only [nodeExecFrom, hexc, if_neg hne]
  have base : ∀ c : Nat, exec c = Except.error (errs c) → c = k - 1 →
      nodeExecFrom exec fb k wait c 1 =
        ((fb (errs c)).map some,
         [REv.execCall c, REv.fallbackCall (errs c)]) := by
    intro c hexc hc
    simp only [nodeExecFrom, hexc, if_pos hc]
  intro remaining
  induction remaining with
  | zero => intro cur _ h0; exact absurd h0 (by omega)
  | succ r ih =>
    intro cur hsum _
    have hcur : cur < k := by omega
    have hex := hfail cur hcur
    rcases Nat.eq_zero_or_pos r with hr | hr
    · subst hr
      have hck : cur = k - 1 := by omega
      rw [base cur hex hck, hck]
      simp
    · obtain ⟨s, rfl⟩ : ∃ s, r = s + 1 := ⟨r - 1, by omega⟩
      have hck : ¬ (cur = k - 1) := by omega
      have hrec := ih (cur + 1) (by omega) (by omega)
      rw [step cur (s + 1) hex hck, hrec]
      simp [List.range'_succ, List.append_assoc]

/-- C1: for a node with retry policy `maxAttempts = k ≥ 1` whose execute
stage throws on every attempt, `Node._exec` invokes the execute stage
exactly `k` times (attempts `0 … k-1`), then invokes the fallback hook once
with the last attempt's error; the default fallback re-raises that error;
and when `wait > 0` the delay events sit exactly between consecutive
attempts (none before the first, none after the last). -/
theorem c1_retry_exec_fallback {E V : Type} (k wait : Nat) (hk : 1 ≤ k)
    (exec : Nat → Except E V) (errs : Nat → E)
    (hfail : ∀ i, i < k → exec i = Except.error (errs i)) :
    (∀ fb : E → Except E V,
      nodeExec exec fb k wait =
        ((fb (errs (k - 1))).map some, allFailTrace k wait errs)) ∧
    nodeExec exec (defaultExecFallback) k wait =
      (Except.error (errs (k - 1)), allFailTrace k wait errs) := by
  have hgen : ∀ fb : E → Except E V,
      nodeExec exec fb k wait =
        ((fb (errs (k - 1))).map some, allFailTrace k wait errs) := by
    intro fb
    have h := nodeExecFrom_all_fail exec fb k wait errs hfail k 0 (by omega)
      (by omega)
    rw [nodeExec, h, allFailTrace, List.range_eq_range']
  refine ⟨hgen, ?_⟩
  have h := hgen defaultExecFallback
  simpa [defaultExecFallback] using h

/-- Witness for C1: three attempts failing with errors 0, 1, 2 under
`wait = 1` give exactly three execute calls with delays between them, one
fallback call with the last error, and a re-raised last error. -/
theorem c1_retry_exec_fallback_witness :
    nodeExec (fun i => (Except.error i : Except Nat Nat)) defaultExecFallback 3 1 =
      (Except.error 2,
       [.execCall 0, .waitEv, .execCall 1, .waitEv, .execCall 2,
        .fallbackCall 2]) := by
  have h := (c1_retry_exec_fallback 3 1 (by omega)
    (fun i => (Except.error i : Except Nat Nat))
    (fun i => i) (fun _ _ => rfl)).2
  exact h.trans (by decide)

/-- When every element execution suspends at least once (as `super._exec`
always does at `await this.exec(prepRes)`), the launch phase is exactly the
start events of all elements, in collection order. -/
theorem launchEvents_all_suspend :
    ∀ (ks : List Nat) (i0 : Nat), (∀ k ∈ ks, 2 ≤ k) →
      launchEvents ks i0 = (List.range' i0 ks.length).map BEv.start := by
  intro ks
  induction ks with
  | nil => intro i0 _; rfl
  | cons k rest ih =>
    intro i0 hall
    have hk : ¬ (k ≤ 1) := by
      have := hall k (by simp)
      omega
    simp only [launchEvents, if_neg hk, List.length_cons, List.range'_succ,
      List.map_cons, List.singleton_append, List.cons.injEq, true_and]
    exact ih (i0 + 1) fun x hx => hall x (by simp [hx])

/-- C2 (amended): `BatchNode._exec` follows the concurrent discipline, not
the sequential one.  `Promise.all((items).map(item => super._exec(item)))`
invokes every element's execution in collection order during the launch
phase — the trace of a batch of `n` elements begins with all `n` start
events — so element `i+1`'s execute stage starts before element `i`'s has
completed whenever the batch has at least two elements. -/
theorem c2_batch_concurrent_launch (ks : List Nat) (h2 : ∀ k ∈ ks, 2 ≤ k)
    (hlen : 2 ≤ ks.length) :
    (promiseAllMapTrace ks).take ks.length =
      (List.range' 0 ks.length).map BEv.start ∧
    startsAfterDones (promiseAllMapTrace ks) = false := by
  have hl := launchEvents_all_suspend ks 0 h2
  have htake : (promiseAllMapTrace ks).take ks.length =
      (List.range' 0 ks.length).map BEv.start := by
    rw [promiseAllMapTrace, hl]
    exact List.take_left' (by simp)
  refine ⟨htake, ?_⟩
  obtain ⟨m, hm⟩ : ∃ m, ks.length = m + 2 := ⟨ks.length - 2, by omega⟩
  have hlentr : ks.length ≤ (promiseAllMapTrace ks).length := by
    have := congrArg List.length htake
    simp only [List.length_take, List.length_map, List.length_range'] at this
    omega
  have hget1 : (promiseAllMapTrace ks).get? 1 = some (BEv.start 1) := by
    have h1 : ((promiseAllMapTrace ks).take ks.length).get? 1 =
        (promiseAllMapTrace ks).get? 1 :=
      List.get?_take (by omega)
    rw [← h1, htake, hm]
    simp [List.range'_succ]
  have htake1 : (promiseAllMapTrace ks).take 1 = [BEv.start 0] := by
    have h1 : ((promiseAllMapTrace ks).take ks.length).take 1 =
        (promiseAllMapTrace ks).take 1 := by
      rw [List.take_take]
      congr 1
      omega
    rw [← h1, htake, hm]
    simp [List.range'_succ]
  rw [Bool.eq_false_iff]
  intro hT
  rw [startsAfterDones, List.all_eq_true] at hT
  have h1mem : (1 : Nat) ∈ List.range (promiseAllMapTrace ks).length :=
    List.mem_range.mpr (by omega)
  have hp := hT 1 h1mem
  rw [hget1] at hp
  simp only [htake1] at hp
  simp at hp

/-- Counterexample to C2 as stated: with two elements whose executions each
suspend once, the trace launches element 1 before element 0 completes —
`[start 0, start 1, done 0, done 1]` — violating the sequential
discipline. -/
theorem c2_batch_not_sequential_cex :
    promiseAllMapTrace [2, 2] = [.start 0, .start 1, .done 0, .done 1] ∧
    startsAfterDones (promiseAllMapTrace [2, 2]) = false := by
  exact ⟨by decide, by decide⟩

/-- Witness for C2 (amended) at the batch `[2, 3]`. -/
theorem c2_batch_concurrent_launch_witness :
    (promiseAllMapTrace [2, 3]).take 2 = [BEv.start 0, BEv.start 1] ∧
    startsAfterDones (promiseAllMapTrace [2, 3]) = false := by
  have h := c2_batch_concurrent_launch [2, 3] (by decide) (by decide)
  exact ⟨h.1.trans (by decide), h.2⟩

/-- Scanning a bracket-free expression followed by the closing braces takes
exactly the expression. -/
theorem takeWhile_ne_rbrace :
    ∀ (l : List Char), rbrace ∉ l →
      (l ++ [rbrace, rbrace]).takeWhile (fun c => decide (c ≠ rbrace)) = l := by
  intro l
  induction l with
  | nil => intro _; simp
  | cons x rest ih =>
    intro hnb
    have hx : x ≠ rbrace := by
      intro hh
      exact hnb (by simp [hh])
    simp only [List.cons_append, List.takeWhile_cons, decide_eq_true_eq]
    rw [if_pos hx, ih (fun hh => hnb (by simp [hh]))]

/-- The scanner returns nothing on exhausted input, whatever the fuel. -/
theorem interpGo_nil (repl : String → String) (fuel : Nat) :
    interpGo repl fuel [] = [] := by
  cases fuel <;> rfl

/-- One scanner step on a single well-formed placeholder: the whole
placeholder is replaced by the substitution computed for its (left-trimmed)
expression text. -/
theorem interpGo_placeholder (repl : String → String) (inner : List Char)
    (fuel : Nat) (hne : inner ≠ []) (hnb : rbrace ∉ inner) :
    interpGo repl (fuel + 1) (lbrace :: lbrace :: (inner ++ [rbrace, rbrace])) =
      (repl (String.mk (inner.dropWhile Char.isWhitespace))).data := by
  have hraw := takeWhile_ne_rbrace inner hnb
  have hempty : inner.isEmpty = false := by
    cases inner with
    | nil => exact absurd rfl hne
    | cons a b => rfl
  simp only [interpGo, hraw, hempty, Bool.false_eq_true, if_false, if_pos,
    List.drop_left, and_self, if_true]
  have hc : List.take 2 [rbrace, rbrace] = [rbrace, rbrace] := rfl
  rw [if_pos hc]
  simp [interpGo_nil]

/-- C6 (amended): when the JavaScript evaluation of a dot-free, non-`json`
placeholder expression throws, the evaluator swallows the failure inside
`evaluateExpression`, which returns the expression text itself — so the
placeholder is replaced by the bare expression with the braces stripped,
not left as the original placeholder text; interpolation is total, so the
flow is not aborted. -/
theorem c6_eval_failure_bare_expr (jsEval : JsEval) (ctx result : JSVal)
    (expr : String)
    (hne : expr.data ≠ [])
    (hnb : rbrace ∉ expr.data)
    (hws : expr.data.dropWhile Char.isWhitespace = expr.data)
    (hjson : "json(".data.isPrefixOf expr.data = false)
    (hdot : expr.data.contains dotChar = false)
    (hkey : expr ∉ evalCtxKeys)
    (hfail : jsEval expr ctx result = .error ()) :
    interpolate jsEval ctx result ("\x7b\x7b" ++ expr ++ "\x7d\x7d") = expr ∧
    interpolate jsEval ctx result ("\x7b\x7b" ++ expr ++ "\x7d\x7d") ≠
      "\x7b\x7b" ++ expr ++ "\x7d\x7d" := by
  have hdata : ("\x7b\x7b" ++ expr ++ "\x7d\x7d").data =
      lbrace :: lbrace :: (expr.data ++ [rbrace, rbrace]) := by
    have h1 : ("\x7b\x7b" : String).data = [lbrace, lbrace] := by decide
    have h2 : ("\x7d\x7d" : String).data = [rbrace, rbrace] := by decide
    rw [String.data_append, String.data_append, h1, h2]
    simp
  have hrepl : placeholderRepl jsEval ctx result expr = expr := by
    rw [placeholderRepl, if_neg (by rw [hjson]; simp), evaluateExpression]
    rw [if_neg (by rw [hdot]; simp), if_neg hkey, hfail]
    rfl
  have hlen : (lbrace :: lbrace :: (expr.data ++ [rbrace, rbrace])).length =
      (expr.data.length + 3) + 1 := by
    simp
  have hmain : interpolate jsEval ctx result ("\x7b\x7b" ++ expr ++ "\x7d\x7d") = expr :=
    calc interpolate jsEval ctx result ("\x7b\x7b" ++ expr ++ "\x7d\x7d")
        = String.mk ((placeholderRepl jsEval ctx result expr).data) := by
          rw [interpolate, hdata, hlen, interpGo_placeholder _ _ _ hne hnb, hws]
      _ = expr := by rw [hrepl]
  refine ⟨hmain, ?_⟩
  intro heq
  rw [hmain] at heq
  have hlen2 := congrArg (fun s : String => s.data.length) heq
  simp only [hdata, List.length_cons, List.length_append] at hlen2
  omega

/-- Counterexample to C6 as stated: the template consisting of the single
placeholder around `foo bar` (whose evaluation throws a SyntaxError) is
replaced by the bare text `foo bar`, not left as the original placeholder
with its braces. -/
theorem c6_braces_stripped_cex :
    interpolate jsEvalNone (.obj []) .undefined "\x7b\x7bfoo bar\x7d\x7d" = "foo bar" ∧
    ("foo bar" : String) ≠ "\x7b\x7bfoo bar\x7d\x7d" := by
  exact ⟨by decide, by decide⟩

/-- Witness for C6 (amended) at the expression `ab cd` under an evaluator
that throws on it. -/
theorem c6_eval_failure_bare_expr_witness :
    interpolate jsEvalNone (.obj []) .undefined "\x7b\x7bab cd\x7d\x7d" = "ab cd" ∧
    interpolate jsEvalNone (.obj []) .undefined "\x7b\x7bab cd\x7d\x7d" ≠
      "\x7b\x7bab cd\x7d\x7d" := by
  have h := c6_eval_failure_bare_expr jsEvalNone (.obj []) .undefined "ab cd"
    (by decide) (by decide) (by decide) (by decide) (by decide) (by decide) rfl
  exact ⟨h.1, h.2⟩

/-- Counterexample to C7 as stated: the specification's end-to-end graph
declares node kind `static-data`, which is not in the compiler's registry
(`llm`, `http`, `router`, `data`, `batch`, `async`, `parallel`), so
compilation throws before anything runs.  (Its save entry also uses the key
`valueTemplate`, which the code never reads — it reads `save.value`.) -/
theorem c7_static_data_unknown_kind_cex :
    compile jsEvalNone {} specEndToEndCfg =
      .error "Unknown node kind: static-data" := by
  unfold compile specEndToEndCfg buildNodes
  simp [makeNode]

/-- C7 (amended): the end-to-end scenario under the code's actual surface —
kind `data`, the save entry keyed `value` with template `result.message` —
compiles, and the run on an empty shared context writes
`sharedContext.out = "hi"` and yields the `null` flow result (the data
node's post returns `post.next || null` and there is no `next`). -/
theorem c7_amended_end_to_end :
    endToEndRun = RunRes.ok (.obj [("out", .str "hi")]) .null ["greet"] ∧
    jsGetField (.obj [("out", .str "hi")]) "out" = .str "hi" := by
  exact ⟨by decide, by decide⟩

/-- C8: the review ⇄ revise cycle bounded by
`loop_guard.max_iterations = 3` on `revise` passes validation, yet within
the first eight hops of the run the `revise` node's lifecycle has executed
four times — no factory reads `loop_guard`, so nothing enforces the declared
bound and the cycle spins until fuel (in JavaScript: forever, as long as the
labels keep matching). -/
theorem c8_loop_guard_not_enforced :
    validateConfig loopCfg = .ok () ∧
    loopTrace.count "revise" = 4 ∧
    ((loopCfg.nodes.find? fun n => n.id = "revise").map
      fun n => n.loopGuardMaxIterations) = some (some 3) := by
  refine ⟨by decide, by decide, by decide⟩

/-! ### Successor-link accounting for compilation totality -/

/-- Lemma: `upsert` leaves the length unchanged on a present key. -/
theorem upsert_length_mem {α : Type} :
    ∀ (l : List (String × α)) (k : String) (x : α),
      k ∈ l.map Prod.fst → (upsert l k x).length = l.length := by
  intro l
  induction l with
  | nil => intro k x h; simp at h
  | cons p rest ih =>
    intro k x h
    by_cases hk : p.1 = k
    · simp [upsert, hk]
    · have hmem : k ∈ rest.map Prod.fst := by
        simp only [List.map_cons, List.mem_cons] at h
        rcases h with h | h
        · exact absurd h.symm hk
        · exact h
      simp [upsert, hk, ih k x hmem]

/-- Lemma: `upsert` appends exactly one entry on an absent key. -/
theorem upsert_length_not_mem {α : Type} :
    ∀ (l : List (String × α)) (k : String) (x : α),
      k ∉ l.map Prod.fst → (upsert l k x).length = l.length + 1 := by
  intro l
  induction l with
  | nil => intro k x _; rfl
  | cons p rest ih =>
    intro k x h
    have hk : ¬ (p.1 = k) := fun hh => h (by simp [hh])
    have hmem : k ∉ rest.map Prod.fst := fun hh => h (by simp [hh])
    simp [upsert, hk, ih k x hmem]

/-- Keys after an `upsert` are the old keys plus the inserted one. -/
theorem mem_upsert_keys {α : Type} :
    ∀ (l : List (String × α)) (k : String) (x : α) (k' : String),
      k' ∈ (upsert l k x).map Prod.fst ↔ (k' ∈ l.map Prod.fst ∨ k' = k) := by
  intro l
  induction l with
  | nil => intro k x k'; simp [upsert]
  | cons p rest ih =>
    intro k x k'
    by_cases hk : p.1 = k
    · simp only [upsert, if_pos hk, List.map_cons, List.mem_cons]
      rw [hk]
      tauto
    · simp only [upsert, if_neg hk, List.map_cons, List.mem_cons, ih k x k']
      tauto

/-- Lemma: `seenPairs` counts exactly the successor links. -/
theorem seenPairs_length :
    ∀ store : Store, (seenPairs store).length = storeLinks store := by
  intro store
  induction store with
  | nil => rfl
  | cons p rest ih =>
    simp only [seenPairs, storeLinks, List.flatMap_cons, List.length_append,
      List.length_map, List.map_cons, List.sum_cons] at ih ⊢
    omega

/-- The first component of any recorded pair is a registered id. -/
theorem seenPairs_fst_mem :
    ∀ (store : Store) (pr : String × String),
      pr ∈ seenPairs store → pr.1 ∈ store.map Prod.fst := by
  intro store
  induction store with
  | nil => intro pr h; simp [seenPairs] at h
  | cons p rest ih =>
    intro pr h
    simp only [seenPairs, List.flatMap_cons, List.mem_append] at h
    rcases h with h | h
    · rcases List.mem_map.mp h with ⟨s, _, hs⟩
      simp [← hs]
    · simp [ih pr h]

/-- Updating an id that is not registered changes nothing. -/
theorem storeUpdate_absent :
    ∀ (store : Store) (f : String) (g : RtNode → RtNode),
      f ∉ store.map Prod.fst → storeUpdate store f g = store := by
  intro store
  induction store with
  | nil => intro f g _; rfl
  | cons p rest ih =>
    intro f g h
    have hp : ¬ (p.1 = f) := fun hh => h (by simp [hh])
    simp only [storeUpdate, List.map_cons, if_neg hp]
    rw [show List.map (fun p => if p.1 = f then (p.1, g p.2) else p) rest
        = storeUpdate rest f g from rfl, ih f g (fun hh => h (by simp [hh]))]

/-- A pair belongs to one node's contribution to `seenPairs` exactly when
its first component is that node's id and its second is a successor key. -/
theorem mem_pairs_iff :
    ∀ (id : String) (l : List (String × String)) (pr : String × String),
      pr ∈ l.map (fun s => (id, s.1)) ↔ (pr.1 = id ∧ pr.2 ∈ l.map Prod.fst) := by
  intro id l pr
  constructor
  · intro h
    rcases List.mem_map.mp h with ⟨s, hs1, hs2⟩
    constructor
    · rw [← hs2]
    · rw [← hs2]
      exact List.mem_map_of_mem Prod.fst hs1
  · intro ⟨h1, h2⟩
    rcases List.mem_map.mp h2 with ⟨s, hs1, hs2⟩
    refine List.mem_map.mpr ⟨s, hs1, ?_⟩
    obtain ⟨a, b⟩ := pr
    simp only at h1 hs2
    rw [h1, hs2]

/-- Unfolding of `storeUpdate` on a matching head entry. -/
theorem storeUpdate_cons_eq (id : String) (nd : RtNode) (rest : Store)
    (g : RtNode → RtNode) :
    storeUpdate ((id, nd) :: rest) id g = (id, g nd) :: storeUpdate rest id g := by
  simp [storeUpdate]

/-- Unfolding of `storeUpdate` on a non-matching head entry. -/
theorem storeUpdate_cons_ne (id f : String) (nd : RtNode) (rest : Store)
    (g : RtNode → RtNode) (h : ¬ (id = f)) :
    storeUpdate ((id, nd) :: rest) f g = (id, nd) :: storeUpdate rest f g := by
  simp [storeUpdate, h]

/-- Effect of wiring one edge on a store with unique ids: registered ids are
unchanged, the link total grows by one exactly when the `(from, label)` pair
is new, and the recorded pairs gain at most that pair. -/
theorem storeUpdate_wire_step :
    ∀ (store : Store) (f key tgt : String),
      (store.map Prod.fst).Nodup →
      ((store.find? fun p => p.1 = f).isSome) = true →
      (storeUpdate store f fun nd =>
          { nd with succ := upsert nd.succ key tgt }).map Prod.fst
        = store.map Prod.fst ∧
      storeLinks (storeUpdate store f fun nd =>
          { nd with succ := upsert nd.succ key tgt })
        = (if (f, key) ∈ seenPairs store then storeLinks store
           else storeLinks store + 1) ∧
      (∀ pr : String × String,
        pr ∈ seenPairs (storeUpdate store f fun nd =>
            { nd with succ := upsert nd.succ key tgt })
          ↔ (pr ∈ seenPairs store ∨ pr = (f, key))) := by
  have hsl2 : ∀ (s : Store) (q : String × RtNode),
      storeLinks (q :: s) = q.2.succ.length + storeLinks s := by
    intro s q
    simp [storeLinks]
  intro store
  induction store with
  | nil => intro f key tgt _ hf; simp [List.find?] at hf
  | cons p rest ih =>
    intro f key tgt hnd hf
    obtain ⟨id, nd⟩ := p
    have hnd1 : id ∉ rest.map Prod.fst := by
      simp only [List.map_cons, List.nodup_cons] at hnd
      exact hnd.1
    have hnd2 : (rest.map Prod.fst).Nodup := by
      simp only [List.map_cons, List.nodup_cons] at hnd
      exact hnd.2
    by_cases hid : id = f
    · subst hid
      have hupd : storeUpdate ((id, nd) :: rest) id
          (fun nd => { nd with succ := upsert nd.succ key tgt })
          = (id, { nd with succ := upsert nd.succ key tgt }) :: rest := by
        rw [storeUpdate_cons_eq, storeUpdate_absent rest id _ hnd1]
      have hpair_rest : (id, key) ∉ seenPairs rest := fun hmem =>
        hnd1 (seenPairs_fst_mem rest (id, key) hmem)
      have hcond : ((id, key) ∈ seenPairs ((id, nd) :: rest))
          ↔ key ∈ nd.succ.map Prod.fst := by
        simp only [seenPairs, List.flatMap_cons, List.mem_append, mem_pairs_iff]
        simp [hpair_rest]
        intro x x1 hmem x2 _ hx
        exfalso
        apply hnd1
        rw [← hx]
        exact List.mem_map_of_mem Prod.fst hmem
      refine ⟨?_, ?_, ?_⟩
      · rw [hupd]
        simp
      · rw [hupd]
        simp only [hsl2]
        rw [if_congr hcond rfl rfl]
        by_cases hkey : key ∈ nd.succ.map Prod.fst
        · rw [if_pos hkey, upsert_length_mem nd.succ key tgt hkey]
        · rw [if_neg hkey, upsert_length_not_mem nd.succ key tgt hkey]
          omega
      · intro pr
        rw [hupd]
        simp only [seenPairs, List.flatMap_cons, List.mem_append, mem_pairs_iff,
          mem_upsert_keys]
        constructor
        · intro h
          rcases h with ⟨h1, h2 | h2⟩ | h
          · exact Or.inl (Or.inl ⟨h1, h2⟩)
          · right
            obtain ⟨a, b⟩ := pr
            simp only at h1 h2
            rw [h1, h2]
          · exact Or.inl (Or.inr h)
        · intro h
          rcases h with (⟨h1, h2⟩ | h) | h
          · exact Or.inl ⟨h1, Or.inl h2⟩
          · exact Or.inr h
          · rw [h]
            exact Or.inl ⟨rfl, Or.inr rfl⟩
    · have hupd : storeUpdate ((id, nd) :: rest) f
          (fun nd => { nd with succ := upsert nd.succ key tgt })
          = (id, nd) :: storeUpdate rest f
              (fun nd => { nd with succ := upsert nd.succ key tgt }) :=
        storeUpdate_cons_ne id f nd rest _ hid
      have hfr : ((rest.find? fun p => p.1 = f).isSome) = true := by
        simp only [List.find?] at hf
        rw [show (decide ((id, nd).1 = f)) = false by simp [hid]] at hf
        exact hf
      have hrec := ih f key tgt hnd2 hfr
      have hmem_iff : ((f, key) ∈ seenPairs ((id, nd) :: rest))
          ↔ (f, key) ∈ seenPairs rest := by
        simp only [seenPairs, List.flatMap_cons, List.mem_append, mem_pairs_iff]
        constructor
        · intro h
          rcases h with ⟨h1, _⟩ | h
          · exact absurd h1.symm hid
          · exact h
        · exact Or.inr
      refine ⟨?_, ?_, ?_⟩
      · rw [hupd]
        simp [hrec.1]
      · rw [hupd]
        simp only [hsl2]
        rw [hrec.2.1, if_congr hmem_iff rfl rfl]
        by_cases hmem : (f, key) ∈ seenPairs rest
        · rw [if_pos hmem, if_pos hmem]
        · rw [if_neg hmem, if_neg hmem]
          omega
      · intro pr
        rw [hupd]
        simp only [seenPairs, List.flatMap_cons, List.mem_append]
        rw [show (storeUpdate rest f fun nd =>
            { nd with succ := upsert nd.succ key tgt }).flatMap
              (fun p => p.2.succ.map fun s => (p.1, s.1))
          = seenPairs (storeUpdate rest f fun nd =>
            { nd with succ := upsert nd.succ key tgt }) from rfl]
        rw [show rest.flatMap (fun p => p.2.succ.map fun s => (p.1, s.1))
          = seenPairs rest from rfl]
        rw [hrec.2.2 pr]
        tauto

/-- Invariant through edge wiring: with unique node ids, a
link total matching the accumulated pair list, and accumulated pairs
matching the store's recorded pairs, successful wiring yields a link total
equal to the accumulated distinct-pair count. -/
theorem wireEdges_links :
    ∀ (es : List EdgeSpec) (store store' : Store) (seen : List (String × String)),
      (store.map Prod.fst).Nodup →
      storeLinks store = seen.length →
      (∀ pr, pr ∈ seen ↔ pr ∈ seenPairs store) →
      wireEdges store es = .ok store' →
      storeLinks store' = (edgePairsDedup es seen).length := by
  intro es
  induction es with
  | nil =>
    intro store store' seen _ hlen _ hw
    simp only [wireEdges] at hw
    cases hw
    exact hlen
  | cons e rest ih =>
    intro store store' seen hnd hlen hmem hw
    simp only [wireEdges] at hw
    by_cases hc : (((store.find? fun p => p.1 = e.fromId).isSome) &&
        ((store.find? fun p => p.1 = e.toId).isSome)) = true
    · rw [if_pos hc] at hw
      have hf : ((store.find? fun p => p.1 = e.fromId).isSome) = true :=
        (Bool.and_eq_true _ _).mp hc |>.1
      have hstep := storeUpdate_wire_step store e.fromId (edgeKey e) e.toId hnd hf
      simp only [edgePairsDedup]
      by_cases hin : (e.fromId, edgeKey e) ∈ seen
      · rw [if_pos hin]
        refine ih _ store' seen (by rw [hstep.1]; exact hnd) ?_ ?_ hw
        · rw [hstep.2.1, if_pos ((hmem _).mp hin)]
          exact hlen
        · intro pr
          rw [hstep.2.2 pr, hmem pr]
          constructor
          · exact Or.inl
          · intro h
            rcases h with h | h
            · exact h
            · rw [h]
              exact (hmem _).mp hin
      · rw [if_neg hin]
        refine ih _ store' (seen ++ [(e.fromId, edgeKey e)])
          (by rw [hstep.1]; exact hnd) ?_ ?_ hw
        · rw [hstep.2.1, if_neg (fun hh => hin ((hmem _).mpr hh))]
          simp [hlen]
        · intro pr
          rw [hstep.2.2 pr, ← hmem pr]
          simp [List.mem_append]
    · rw [if_neg hc] at hw
      cases hw

/-- Every node factory starts with an empty successor map and the empty
parameter object of the `BaseNode` constructor. -/
theorem makeNode_succ_params (jsEval : JsEval) (env : Env) (spec : NodeSpec)
    (nd : RtNode) (h : makeNode jsEval env spec = some nd) :
    nd.succ = [] ∧ nd.params = .obj [] := by
  unfold makeNode at h
  split at h <;> simp_all <;> (rw [← h]; exact ⟨rfl, rfl⟩)

/-- Node creation: on success the store holds one node per spec, in order,
with ids exactly the spec ids appended to the accumulator's. -/
theorem buildNodes_props :
    ∀ (specs : List NodeSpec) (acc store : Store) (jsEval : JsEval) (env : Env),
      buildNodes jsEval env specs acc = .ok store →
      (acc.map Prod.fst).Nodup →
      (∀ p ∈ acc, p.2.succ = ([] : List (String × String))) →
      store.length = acc.length + specs.length ∧
      (store.map Prod.fst).Nodup ∧
      (∀ p ∈ store, p.2.succ = ([] : List (String × String))) := by
  intro specs
  induction specs with
  | nil =>
    intro acc store jsEval env hb hnd hsuc
    simp only [buildNodes] at hb
    cases hb
    exact ⟨by simp, hnd, hsuc⟩
  | cons spec rest ih =>
    intro acc store jsEval env hb hnd hsuc
    simp only [buildNodes] at hb
    by_cases hdup : ((acc.find? fun p => p.1 = spec.id).isSome) = true
    · rw [if_pos hdup] at hb
      cases hb
    · rw [if_neg hdup] at hb
      cases hmk : makeNode jsEval env spec with
      | none => rw [hmk] at hb; cases hb
      | some nd =>
        rw [hmk] at hb
        have hid : spec.id ∉ acc.map Prod.fst := by
          intro hin
          apply hdup
          rcases List.mem_map.mp hin with ⟨q, hq1, hq2⟩
          rw [List.find?_isSome]
          exact ⟨q, hq1, by simp [hq2]⟩
        have hnd' : ((acc ++ [(spec.id, nd)]).map Prod.fst).Nodup := by
          simp only [List.map_append, List.map_cons, List.map_nil]
          rw [List.nodup_append]
          refine ⟨hnd, by simp, ?_⟩
          intro a ha hb'
          simp only [List.mem_singleton] at hb'
          exact hid (hb' ▸ ha)
        have hsuc' : ∀ p ∈ acc ++ [(spec.id, nd)],
            p.2.succ = ([] : List (String × String)) := by
          intro p hp
          rcases List.mem_append.mp hp with hp | hp
          · exact hsuc p hp
          · simp only [List.mem_singleton] at hp
            rw [hp]
            exact (makeNode_succ_params jsEval env spec nd hmk).1
        have := ih (acc ++ [(spec.id, nd)]) store jsEval env hb hnd' hsuc'
        refine ⟨?_, this.2.1, this.2.2⟩
        rw [this.1]
        simp
        omega

/-- A store of link-free nodes records no pairs and no links. -/
theorem seenPairs_empty_of_no_succ :
    ∀ store : Store, (∀ p ∈ store, p.2.succ = ([] : List (String × String))) →
      seenPairs store = [] ∧ storeLinks store = 0 := by
  intro store
  induction store with
  | nil => intro _; exact ⟨rfl, rfl⟩
  | cons p rest ih =>
    intro h
    have hp := h p (by simp)
    have hr := ih fun q hq => h q (by simp [hq])
    constructor
    · rw [show seenPairs (p :: rest) =
          p.2.succ.map (fun s => (p.1, s.1)) ++ seenPairs rest from rfl, hp, hr.1]
      rfl
    · rw [show storeLinks (p :: rest) = p.2.succ.length + storeLinks rest from
        by simp [storeLinks], hp, hr.2]
      rfl

/-- Wiring preserves the number of registered nodes. -/
theorem wireEdges_length :
    ∀ (es : List EdgeSpec) (store store' : Store),
      wireEdges store es = .ok store' → store'.length = store.length := by
  intro es
  induction es with
  | nil =>
    intro store store' hw
    simp only [wireEdges] at hw
    cases hw
    rfl
  | cons e rest ih =>
    intro store store' hw
    simp only [wireEdges] at hw
    by_cases hc : (((store.find? fun p => p.1 = e.fromId).isSome) &&
        ((store.find? fun p => p.1 = e.toId).isSome)) = true
    · rw [if_pos hc] at hw
      rw [ih _ _ hw]
      simp [storeUpdate]
    · rw [if_neg hc] at hw
      cases hw

/-- On pairwise-distinct pairs the dedup fold appends every edge. -/
theorem edgePairsDedup_nodup :
    ∀ (es : List EdgeSpec) (seen : List (String × String)),
      (es.map fun e => (e.fromId, edgeKey e)).Nodup →
      (∀ e ∈ es, (e.fromId, edgeKey e) ∉ seen) →
      (edgePairsDedup es seen).length = seen.length + es.length := by
  intro es
  induction es with
  | nil => intro seen _ _; simp [edgePairsDedup]
  | cons e rest ih =>
    intro seen hnd hno
    have hnotin : (e.fromId, edgeKey e) ∉ seen := hno e (by simp)
    simp only [edgePairsDedup, if_neg hnotin]
    rw [ih (seen ++ [(e.fromId, edgeKey e)]) (by simp [List.map_cons] at hnd; exact hnd.2) ?_]
    · simp
      omega
    · intro d hd
      simp only [List.mem_append, List.mem_singleton]
      intro h
      rcases h with h | h
      · exact hno d (by simp [hd]) h
      · simp only [List.map_cons, List.nodup_cons] at hnd
        exact hnd.1 (h ▸ List.mem_map_of_mem (fun e => (e.fromId, edgeKey e)) hd)

/-- C5 (amended): for a Graph Description that passes validation and
compiles, compilation produces exactly N runtime nodes (one per node spec);
the number of installed successor links equals the number of DISTINCT
`(from, label || 'default')` pairs among the edges — equal to M exactly when
no two edges share a source and label, but strictly fewer when they do,
because `successors[label] = node` overwrites. -/
theorem c5_compile_counts (jsEval : JsEval) (env : Env) (cfg : GraphConfig)
    (out : Compiled)
    (hval : validateConfig cfg = .ok ())
    (hcomp : compile jsEval env cfg = .ok out) :
    out.nodes.length = cfg.nodes.length ∧
    totalLinks out = distinctPairCount cfg.edges ∧
    ((cfg.edges.map fun e => (e.fromId, edgeKey e)).Nodup →
      totalLinks out = cfg.edges.length) := by
  rw [compile] at hcomp
  by_cases hv : cfg.version = "" ∨ cfg.entry = ""
  · rw [if_pos hv] at hcomp
    cases hcomp
  rw [if_neg hv] at hcomp
  split at hcomp
  · cases hcomp
  · rename_i store0 hb
    split at hcomp
    · cases hcomp
    · rename_i store1 hw
      split at hcomp
      swap
      · cases hcomp
      rename_i he
      · have hout : out.nodes = store1 := by
          cases hcomp
          rfl
        have hbn := buildNodes_props cfg.nodes [] store0 jsEval env hb
          (by simp) (by simp)
        have hempty := seenPairs_empty_of_no_succ store0 hbn.2.2
        have hwl := wireEdges_links cfg.edges store0 store1 [] hbn.2.1
          (by rw [hempty.2]; rfl)
          (by intro pr; rw [hempty.1])
          hw
        have hlinks : totalLinks out = distinctPairCount cfg.edges := by
          rw [show totalLinks out = storeLinks out.nodes from rfl, hout, hwl]
          rfl
        refine ⟨?_, hlinks, ?_⟩
        · rw [hout, wireEdges_length cfg.edges store0 store1 hw, hbn.1]
          simp
        · intro hnp
          rw [hlinks, distinctPairCount,
            edgePairsDedup_nodup cfg.edges [] hnp (by simp)]
          simp

/-- Counterexample to C5 as stated: `dupLabelCfg` passes validation with
N = 3 node specs and M = 2 edge specs, but both edges leave `a` under the
implicit "default" label, so the second overwrites the first and
compilation installs a single successor link, not two. -/
theorem c5_duplicate_label_links_cex :
    validateConfig dupLabelCfg = .ok () ∧
    dupLabelCfg.nodes.length = 3 ∧
    dupLabelCfg.edges.length = 2 ∧
    dupLabelCfgLinks = 1 := by
  exact ⟨by decide, rfl, rfl, by decide⟩

/-- Witness for C5 (amended) on a two-node, one-edge graph. -/
theorem c5_compile_counts_witness :
    smallCompiled.nodes.length = 2 ∧
    totalLinks smallCompiled = 1 ∧
    totalLinks smallCompiled = smallCfg.edges.length := by
  have h := c5_compile_counts jsEvalNone {} smallCfg smallCompiled
    (by decide) rfl
  exact ⟨h.1.trans (by decide), h.2.1.trans (by decide), h.2.2 (by decide)⟩

end PFJS
